import Mathlib

/-!
Shallow embedding of the word-expansion engine in
src/src/lib/parser/shell_expand/mod.rs of the ion repository.

Strings are modelled as byte lists (List Nat); every concrete literal used
below is ASCII, where mapping each character to its code point agrees with
the UTF-8 bytes of the Rust string.  Rust usize arithmetic is modelled
modulo 2^64 (release-mode wrapping); an out-of-bounds slice and the
unreachable branches are modelled by Option, with none standing for a
panic.  External collaborator crates and modules that are not under src/
(the tokenizer module words.rs, the braces generator, the ranges parser,
the glob matcher, the calc evaluator, unicode segmentation) are modelled
from the spec where a claim needs them; each such definition is marked
with a doc comment starting with the words Modelled from the spec.
-/

namespace IonExpand

/-- Byte strings: the model of Rust str, small::String and types::Str. -/
abbrev Str := List Nat

/-- ASCII string literals rendered as byte lists (all literals used in this
file are ASCII, where this agrees with the UTF-8 bytes). -/
def str (s : String) : Str := s.toList.map Char.toNat

/-- 2^64: usize arithmetic is modelled modulo this constant. -/
def WSIZE : Nat := 2 ^ 64

/-- Wrapping usize subtraction (release-mode semantics). -/
def wsub (a b : Nat) : Nat := (a + (WSIZE - b % WSIZE)) % WSIZE

/-- char::is_whitespace applied to a byte cast to char: the White_Space
code points below 0x100 are 0x09-0x0D, 0x20, 0x85 and 0xA0. -/
def wsByte (b : Nat) : Bool :=
  b == 9 || b == 10 || b == 11 || b == 12 || b == 13 || b == 32 || b == 133 || b == 160

/-- ptr::copy of count bytes from offset i+1 down to offset i inside one
buffer (memmove semantics): positions i to i+count-1 receive the bytes
previously at i+1 to i+count, everything else is unchanged. -/
def copyDown (bytes : List Nat) (i count : Nat) : List Nat :=
  bytes.take i ++ (bytes.drop (i + 1)).take count ++ bytes.drop (i + count)

/-- Result of the compaction loop: the final buffer and size counter, or a
detected out-of-bounds access, or fuel exhaustion (a model artifact; the
fuel passed by expand_process covers every terminating run). -/
inductive CompactOut where
  | ok (bytes : List Nat) (size : Nat)
  | oob
  | fuelOut
deriving DecidableEq

/-- The in-place whitespace-squashing loop of the unquoted branch of
expand_process (source lines 57-81), including the trailing
prev_is_whitespace trim that follows the loop.  A bytes[i] read outside
the buffer and a ptr::copy whose source range would leave the buffer are
modelled as oob; the usize counters wrap. -/
def compactLoop : Nat → List Nat → Nat → Nat → Bool → CompactOut
  | 0, _, _, _, _ => .fuelOut
  | fuel + 1, bytes, size, i, prev =>
    if i < size then
      match bytes.get? i with
      | Option.none => .oob
      | some b =>
        let isWs := wsByte b
        let bytes2 := if isWs then bytes.set i 32 else bytes
        if isWs && prev then
          let size2 := wsub size 1
          if i != wsub size2 1 then
            let count := wsub size2 i
            if i + 1 + count ≤ bytes2.length then
              compactLoop fuel (copyDown bytes2 i count) size2 i prev
            else .oob
          else
            compactLoop fuel bytes2 size2 i prev
        else
          compactLoop fuel bytes2 size (i + 1) isWs
    else
      .ok bytes (if prev then wsub size 1 else size)

/-- output.rfind of a character other than a newline: the largest index
holding a byte different from 0x0A. -/
def rfindNonNl : List Nat → Option Nat
  | [] => Option.none
  | b :: t =>
    match rfindNonNl t with
    | some j => some (j + 1)
    | Option.none => if b != 10 then some 0 else Option.none

/-- ranges::Index. -/
inductive Index where
  | forward (n : Nat)
  | backward (n : Nat)

/-- Modelled from the spec: ranges::Range (not under src/) is an opaque
bounds object whose whole visible behavior is resolve(length) yielding an
optional (start, length) pair; it is modelled as that resolution function. -/
def RangeT := Nat → Option (Nat × Nat)

/-- words::Select. -/
inductive Select where
  | none_
  | all
  | index (i : Index)
  | range (r : RangeT)
  | key (k : Str)

/-- The Expander trait of the source: the four optional capabilities. -/
structure Expander where
  tilde : Str → Option Str
  array : Str → Select → Option (List Str)
  string : Str → Bool → Option Str
  command : Str → Option Str

/-- Modelled from the spec: the external collaborators that live outside
src/ - the glob matcher, the range-literal parser, grapheme segmentation
and the arithmetic evaluator (whose numeric result or displayable error is
modelled directly as its rendered text). -/
structure Ext where
  glob : Str → Except Unit (List Str)
  parseRange : Str → Option (List Str)
  graphemes : Str → List Str
  calcEval : Str → Except Str Str

/-- The slice function of the source (lines 162-191): appends the selected
part of an expanded string to the output buffer.  Grapheme segmentation is
the external collaborator held in Ext. -/
def slice (ext : Ext) (output : Str) (expanded : Str) (selection : Select) : Str :=
  match selection with
  | .none_ => output
  | .all => output ++ expanded
  | .index (.forward id) =>
    match (ext.graphemes expanded).get? id with
    | some g => output ++ g
    | Option.none => output
  | .index (.backward id) =>
    match (ext.graphemes expanded).reverse.get? id with
    | some g => output ++ g
    | Option.none => output
  | .range r =>
    let gs := ext.graphemes expanded
    match r gs.length with
    | some (start, len) => output ++ ((gs.drop start).take len).flatten
    | Option.none => output
  | .key _ => output

/-- expand_process (lines 38-86).  The quoted branch trims after the last
non-newline byte (or keeps the whole output when there is none); the
unquoted branch runs the compaction loop and slices the buffer to the
final size counter.  none models a panic (an out-of-bounds slice or loop
access). -/
def expand_process (ext : Ext) (E : Expander) (current : Str) (command : Str)
    (selection : Select) (quoted : Bool) : Option Str :=
  match E.command command with
  | Option.none => some current
  | some output =>
    if output = [] then some current
    else if quoted then
      let out2 :=
        match rfindNonNl output with
        | some pos => output.take (pos + 1)
        | Option.none => output
      some (slice ext current out2 selection)
    else
      match compactLoop (3 * output.length + 3) output output.length 0 true with
      | .ok bytes size =>
        if size ≤ bytes.length then some (slice ext current (bytes.take size) selection)
        else Option.none
      | _ => Option.none

/-- An expander whose only capability is command substitution with a fixed
output (the shape of the CommandExpander in the source tests, specialised
to a constant). -/
def cmdE (out : Str) : Expander :=
  ⟨fun _ => Option.none, fun _ _ => Option.none, fun _ _ => Option.none, fun _ => some out⟩

/-- The expander with no capabilities at all (every trait method keeps its
default None, as in the source trait). -/
def E0 : Expander :=
  ⟨fun _ => Option.none, fun _ _ => Option.none, fun _ _ => Option.none, fun _ => Option.none⟩

/-- Modelled from the spec: a concrete collaborator instantiation for
concrete runs - a filesystem on which no glob pattern matches, no word in
range-literal syntax, ASCII grapheme segmentation (one cluster per byte),
and an evaluator that reports its input back as error text. -/
def ext0 : Ext :=
  ⟨fun _ => .ok [], fun _ => Option.none, fun s => s.map (fun b => [b]), fun s => .error s⟩

/-- Modelled from the spec: an array-method call collaborator (the methods
module is not under src/), abstracted by what the walks observe of it: the
text its handle appends to the buffer and the array handle_as_array
yields. -/
structure AMethod where
  handle : Expander → Str
  handleAsArray : Expander → List Str

/-- Modelled from the spec: a string-method call collaborator, abstracted
by the text its handle appends to the buffer. -/
structure SMethod where
  handle : Expander → Str

/-- words::WordToken, the closed token union of the spec data model. -/
inductive WordToken where
  | normal (text : Str) (doGlob : Bool) (tilde : Bool)
  | whitespace (text : Str)
  | brace (nodes : List Str)
  | array (elements : List Str) (sel : Select)
  | var (name : Str) (quoted : Bool) (sel : Select)
  | arrayVariable (name : Str) (quoted : Bool) (sel : Select)
  | process (command : Str) (quoted : Bool) (sel : Select)
  | arrayProcess (command : Str) (quoted : Bool) (sel : Select)
  | arrayMethod (m : AMethod)
  | stringMethod (m : SMethod)
  | arithmetic (expr : Str)

/-- braces::BraceToken: a fixed segment or an expansion placeholder. -/
inductive BraceToken where
  | normal (text : Str)
  | expander

/-- The type of the recursive re-entry into string expansion used by the
helpers: arguments are the glob-enabled flag (expand_string versus
expand_string_no_glob), the text and reverse_quoting. -/
abbrev Rec := Bool → Str → Bool → Option (List Str)

/-- str::split_whitespace - maximal runs separated by whitespace bytes,
empty fields dropped. -/
def splitWs (l : Str) : List Str :=
  (l.foldr
    (fun c acc =>
      if wsByte c then [] :: acc
      else
        match acc with
        | [] => [[c]]
        | h :: t => (c :: h) :: t)
    []).filter (fun w => w ≠ [])

/-- join with a single-space separator (slice::join of the source). -/
def joinSp (l : List Str) : Str := List.intercalate [32] l

/-- str::split on one separator byte, keeping empty fields. -/
def splitChar (c : Nat) (l : Str) : List Str :=
  l.foldr
    (fun x acc =>
      if x = c then [] :: acc
      else
        match acc with
        | [] => [[x]]
        | h :: t => (x :: h) :: t)
    [[]]

/-- Modelled from the spec: the str::parse into Select used by the
multi-key rewrite and the tokenizer (words.rs is not under src/).  A
nonnegative integer n is Index(Forward(n)); a negative integer -k is the
backward index counting from the end, so -k is Index(Backward(k-1)) -
matching the spec examples where -3 over [1 2 3] selects "1"; anything
else falls back to Select::None, as the source's unwrap_or does. -/
def parseSelectM (s : Str) : Select :=
  let decDigits : Str → Option Nat := fun l =>
    if l = [] then Option.none
    else if l.all (fun c => 48 ≤ c && c ≤ 57) then
      some (l.foldl (fun a c => a * 10 + (c - 48)) 0)
    else Option.none
  match s with
  | 45 :: rest =>
    match decDigits rest with
    | some k => if k = 0 then Select.none_ else Select.index (Index.backward (k - 1))
    | Option.none => Select.none_
  | _ =>
    match decDigits s with
    | some k => Select.index (Index.forward k)
    | Option.none => Select.none_

/-- Modelled from the spec: scanning past one balanced bracket group -
given the text after the opening bracket, the text strictly inside the
matching close and the text after it. -/
def matchDepth (openB closeB : Nat) : List Nat → Nat → Option (Str × Str)
  | [], _ => Option.none
  | c :: t, d =>
    if c = closeB then
      if d = 0 then some ([], t)
      else
        match matchDepth openB closeB t (d - 1) with
        | some (inside, rest) => some (c :: inside, rest)
        | Option.none => Option.none
    else if c = openB then
      match matchDepth openB closeB t (d + 1) with
      | some (inside, rest) => some (c :: inside, rest)
      | Option.none => Option.none
    else
      match matchDepth openB closeB t d with
      | some (inside, rest) => some (c :: inside, rest)
      | Option.none => Option.none

/-- Modelled from the spec: splitting brace-group contents at the commas
of nesting depth zero, keeping empty alternatives. -/
def splitTopComma : List Nat → Nat → Str → List Str
  | [], _, acc => [acc]
  | c :: t, d, acc =>
    if c = 44 ∧ d = 0 then acc :: splitTopComma t 0 []
    else splitTopComma t (if c = 123 then d + 1 else if c = 125 then d - 1 else d) (acc ++ [c])

/-- Modelled from the spec: the token-producing part of the external
tokenizer (words.rs, not under src/), restricted to the shapes the claims
exercise: maximal brace-free text runs become Normal tokens whose glob
flag is set exactly when globbing is enabled and the text holds a star
(the spec's sole trigger heuristic), and each balanced brace group becomes
a Brace token holding its top-level comma alternatives. -/
def tokAux (g : Bool) : Nat → List Nat → List WordToken
  | 0, _ => []
  | _, [] => []
  | fuel + 1, s =>
    let text := s.takeWhile (fun c => c != 123)
    let rest := s.dropWhile (fun c => c != 123)
    let pre : List WordToken :=
      if text = [] then [] else [WordToken.normal text (g && text.contains 42) false]
    pre ++
      match rest with
      | [] => []
      | _ :: after =>
        match matchDepth 123 125 after 0 with
        | some (inside, after2) =>
          WordToken.brace (splitTopComma inside 0 []) :: tokAux g fuel after2
        | Option.none => [WordToken.normal rest (g && rest.contains 42) false]

/-- Modelled from the spec: the external tokenizer entry point.  A word
starting with an array literal [elements] with an optional [selector]
suffix yields an Array token (selector All when absent); the rest of the
word, and any other word, is tokenized by tokAux. -/
def tokenizeM (s : Str) (g : Bool) : List WordToken :=
  match s with
  | 91 :: rest =>
    match matchDepth 91 93 rest 0 with
    | some (inside, after) =>
      match after with
      | 91 :: rest2 =>
        match matchDepth 91 93 rest2 0 with
        | some (selIn, after2) =>
          WordToken.array (splitWs inside) (parseSelectM selIn) :: tokAux g (after2.length + 1) after2
        | Option.none => tokAux g (s.length + 1) s
      | _ => WordToken.array (splitWs inside) Select.all :: tokAux g (after.length + 1) after
    | Option.none => tokAux g (s.length + 1) s
  | _ => tokAux g (s.length + 1) s

/-- The multi-key ArrayVariable rewrite performed by expand_string while
collecting tokens (lines 213-240): a Key selector whose text holds a space
is split at spaces, each piece parsed as a Select, the resulting
ArrayVariable tokens interleaved with single-space Whitespace tokens and
the trailing Whitespace token popped; every other token passes through. -/
def rewriteTok : WordToken → List WordToken
  | .arrayVariable n q (.key k) =>
    if k.contains 32 then
      ((splitChar 32 k).flatMap
        (fun idx => [WordToken.arrayVariable n q (parseSelectM idx), WordToken.whitespace [32]])).dropLast
    else [.arrayVariable n q (.key k)]
  | t => [t]

/-- Modelled from the spec: the combinatorial brace generator
braces::expand (not under src/) - the deterministic cartesian product over
the fixed-segment/placeholder layout, one string per combination, leftmost
placeholder varying slowest (first-candidate-first order). -/
def bracesExpandM : List BraceToken → List (List Str) → List Str
  | [], _ => [[]]
  | .normal t :: rest, ls => (bracesExpandM rest ls).map (fun w => t ++ w)
  | .expander :: rest, ls =>
    match ls with
    | [] => bracesExpandM rest []
    | l :: ls2 => l.flatMap (fun c => (bracesExpandM rest ls2).map (fun w => c ++ w))

/-- The identifier classification of expand_arithmetic (line 712): ASCII
digits, letters and underscore, by byte ranges. -/
def identByte (b : Nat) : Bool :=
  (48 ≤ b && b ≤ 57) || (65 ≤ b && b ≤ 90) || b == 95 || (97 ≤ b && b ≤ 122)

/-- The byte loop of expand_arithmetic (lines 710-721): identifier bytes
accumulate in varbuf; any other byte first flushes varbuf through the
unquoted string lookup (keeping the identifier on a failed lookup) and is
then appended itself; a final flush ends the scan. -/
def arithLoop (E : Expander) : List Nat → Str → Str → Str
  | [], varbuf, inter =>
    if varbuf = [] then inter else inter ++ ((E.string varbuf false).getD varbuf)
  | c :: rest, varbuf, inter =>
    if identByte c then arithLoop E rest (varbuf ++ [c]) inter
    else
      let inter2 := if varbuf = [] then inter else inter ++ ((E.string varbuf false).getD varbuf)
      arithLoop E rest [] (inter2 ++ [c])

/-- expand_arithmetic (lines 695-729): substitute identifiers, hand the
result to the evaluator, and append its result text - or, on failure, its
error text - to the output buffer. -/
def expand_arithmetic (ext : Ext) (E : Expander) (output : Str) (input : Str) : Str :=
  let intermediate := arithLoop E input [] []
  match ext.calcEval intermediate with
  | .ok s => output ++ s
  | .error e => output ++ e

/-- array_nth (lines 139-147): flatten the recursive expansions of the
elements and take the n-th from the front or from the back. -/
def array_nth (rec : Rec) (elements : List Str) (idx : Index) : Option (Option Str) := do
  let exps ← elements.mapM (fun e => rec true e false)
  let expanded := exps.flatten
  pure
    (match idx with
     | .forward n => expanded.get? n
     | .backward n => expanded.reverse.get? n)

/-- array_range (lines 149-160): resolve the range against the flattened
length and keep the contiguous piece, or nothing when resolution fails. -/
def array_range (rec : Rec) (elements : List Str) (r : RangeT) : Option (List Str) := do
  let exps ← elements.mapM (fun e => rec true e false)
  let expanded := exps.flatten
  pure
    (match r expanded.length with
     | some (start, length) => (expanded.drop start).take length
     | Option.none => [])

/-- array_expand (lines 120-137). -/
def array_expand (rec : Rec) (elements : List Str) (selection : Select) : Option (List Str) :=
  match selection with
  | .none_ => some []
  | .all => do
    let exps ← elements.mapM (fun e => rec true e false)
    pure exps.flatten
  | .index i => do
    match (← array_nth rec elements i) with
    | some s => pure [s]
    | Option.none => pure []
  | .range r => array_range rec elements r
  | .key _ => some []

/-- expand_brace (lines 88-118): expand every alternative through the
glob-disabled entry, enumerate range literals, and either record a
placeholder with its candidate list (flushing the rolling buffer as a
fixed segment) or, when no candidate survives, append a literal pair of
braces to the buffer.  Returns the new rolling buffer, expander lists and
brace tokens. -/
def expand_brace (ext : Ext) (rec : Rec) (current : Str)
    (expanders : List (List Str)) (tokens : List BraceToken) (nodes : List Str)
    (reverseQuoting : Bool) : Option (Str × List (List Str) × List BraceToken) := do
  let words ← nodes.mapM (fun node => rec false node reverseQuoting)
  let temp := words.flatten.foldl
    (fun temp word =>
      match ext.parseRange word with
      | some elements => temp ++ elements
      | Option.none => temp ++ [word])
    []
  if temp = [] then
    pure (current ++ [123, 125], expanders, tokens)
  else
    let tokens2 := if current = [] then tokens ++ [BraceToken.expander]
      else tokens ++ [BraceToken.normal current, BraceToken.expander]
    pure ([], expanders ++ [temp], tokens2)

/-- The fn expand helper (lines 545-579): resolve the tilde, then either
glob into the output array (keeping the text itself on a glob error or
when no path matched) or append the text to the shared buffer. -/
def expand (ext : Ext) (E : Expander) (output : Str) (expandedWords : List Str)
    (text : Str) (doGlob : Bool) (tilde : Bool) : Str × List Str :=
  let expanded := if tilde then (E.tilde text).getD text else text
  if doGlob then
    match ext.glob expanded with
    | .ok paths =>
      if paths = [] then (output, expandedWords ++ [expanded])
      else (output, expandedWords ++ paths)
    | .error _ => (output, expandedWords ++ [expanded])
  else
    (output ++ expanded, expandedWords)

/-- The glob post-processing fold at the end of expand_braces (lines
392-419): a word holding a star is run through the glob matcher, keeping
the word itself on an error or when no path comes back, and pushing every
matched path otherwise; any other word is pushed unchanged. -/
def globFold (ext : Ext) (words : List Str) : List Str :=
  words.foldl
    (fun array word =>
      if word.contains 42 then
        match ext.glob word with
        | .ok [] => array ++ [word]
        | .ok (p :: ps) => array ++ (p :: ps)
        | .error _ => array ++ [word]
      else array ++ [word])
    []

/-- The ArrayProcess arms shared verbatim by the walks of expand_braces
(lines 301-333) and expand_tokens (lines 611-643): run the process
substitution unquoted with selector All into a fresh buffer, word-split
it, and return the text the selector appends (nothing for Select::None and
Select::Key, and nothing when a range fails to resolve). -/
def arrayProcessAppend (ext : Ext) (E : Expander) (command : Str) (idx : Select) :
    Option Str :=
  match idx with
  | .none_ => some []
  | .all => do
    let temp ← expand_process ext E [] command .all false
    pure (joinSp (splitWs temp))
  | .index (.forward id) => do
    let temp ← expand_process ext E [] command .all false
    pure (((splitWs temp).get? id).getD [])
  | .index (.backward id) => do
    let temp ← expand_process ext E [] command .all false
    pure (((splitWs temp).reverse.get? id).getD [])
  | .range r => do
    let temp ← expand_process ext E [] command .all false
    let ps := splitWs temp
    match r ps.length with
    | some (start, length) => pure (joinSp ((ps.drop start).take length))
    | Option.none => pure []
  | .key _ => some []

/-- One step of the token walk of expand_braces (lines 291-374), carried
state: rolling buffer, expanded words, brace tokens, expander lists. -/
def braceStep (ext : Ext) (E : Expander) (rec : Rec) (rq : Bool)
    (st : Str × List Str × List BraceToken × List (List Str)) (w : WordToken) :
    Option (Str × List Str × List BraceToken × List (List Str)) :=
  match st with
  | (output, words, tokens, expanders) =>
    match w with
    | .array elements idx => do
      let a ← array_expand rec elements idx
      pure (output ++ joinSp a, words, tokens, expanders)
    | .arrayVariable name _ idx =>
      match E.array name idx with
      | some a => some (output ++ joinSp a, words, tokens, expanders)
      | Option.none => some (output, words, tokens, expanders)
    | .arrayProcess command _ idx => do
      let t ← arrayProcessAppend ext E command idx
      pure (output ++ t, words, tokens, expanders)
    | .arrayMethod m => some (output ++ m.handle E, words, tokens, expanders)
    | .stringMethod m => some (output ++ m.handle E, words, tokens, expanders)
    | .brace nodes => do
      let r ← expand_brace ext rec output expanders tokens nodes rq
      match r with
      | (o, ex, tk) => pure (o, words, tk, ex)
    | .whitespace t => some (output ++ t, words, tokens, expanders)
    | .process command quoted idx => do
      let q := if rq then !quoted else quoted
      let o ← expand_process ext E output command idx q
      pure (o, words, tokens, expanders)
    | .var name quoted idx =>
      let q := if rq then !quoted else quoted
      match E.string name q with
      | Option.none => some (output, words, tokens, expanders)
      | some v => some (slice ext output v idx, words, tokens, expanders)
    | .normal text _ tilde =>
      match expand ext E output words text false tilde with
      | (o, w2) => some (o, w2, tokens, expanders)
    | .arithmetic s => some (expand_arithmetic ext E output s, words, tokens, expanders)

/-- expand_braces (lines 281-420): walk the tokens, then either push the
rolling buffer as the sole word or run the combinatorial generator over
the recorded layout, and finally apply the glob post-processing fold. -/
def expand_braces (ext : Ext) (E : Expander) (rec : Rec)
    (wordTokens : List WordToken) (rq : Bool) : Option (List Str) := do
  let st ← wordTokens.foldlM (braceStep ext E rec rq) ([], [], [], [])
  match st with
  | (output, words, tokens, expanders) =>
    let words2 :=
      if expanders = [] then words ++ [output]
      else
        words ++
          bracesExpandM
            (if output = [] then tokens else tokens ++ [BraceToken.normal output])
            expanders
    pure (globFold ext words2)

/-- expand_single_array_token (lines 422-494): the array-shaped reading of
one token, None when the token is not array-shaped (the outer Option
models a panic inside a nested expansion). -/
def expand_single_array_token (ext : Ext) (E : Expander) (rec : Rec)
    (token : WordToken) : Option (Option (List Str)) :=
  match token with
  | .array elements idx => do
    let a ← array_expand rec elements idx
    pure (some a)
  | .arrayVariable name quoted idx =>
    some (some
      (match E.array name idx with
       | some a => if quoted then [joinSp a] else a
       | Option.none => []))
  | .arrayProcess command _ idx =>
    match idx with
    | .none_ => some (some [])
    | .all => do
      let o ← expand_process ext E [] command .all false
      pure (some (splitWs o))
    | .index (.forward id) => do
      let o ← expand_process ext E [] command .all false
      pure (some ((splitWs o).get? id).toList)
    | .index (.backward id) => do
      let o ← expand_process ext E [] command .all false
      pure (some ((splitWs o).reverse.get? id).toList)
    | .range r => do
      let o ← expand_process ext E [] command .all false
      let ps := splitWs o
      pure (some
        (match r ps.length with
         | some (start, length) => (ps.drop start).take length
         | Option.none => []))
    | .key _ => some (some [])
  | .arrayMethod m => some (some (m.handleAsArray E))
  | _ => some Option.none

/-- expand_single_string_token (lines 496-543); none models the
unreachable arms and panics inside process expansion. -/
def expand_single_string_token (ext : Ext) (E : Expander) (token : WordToken)
    (rq : Bool) : Option (List Str) :=
  match token with
  | .stringMethod m =>
    let output := m.handle E
    some (if output = [] then [] else [output])
  | .normal text doGlob tilde =>
    match expand ext E [] [] text doGlob tilde with
    | (output, words) => some (if output = [] then words else words ++ [output])
  | .whitespace t => some (if t = [] then [] else [t])
  | .process command quoted idx => do
    let q := if rq then !quoted else quoted
    let output ← expand_process ext E [] command idx q
    pure (if output = [] then [] else [output])
  | .var name quoted idx =>
    let q := if rq then !quoted else quoted
    match E.string name q with
    | Option.none => some []
    | some v =>
      let output := slice ext [] v idx
      some (if output = [] then [] else [output])
  | .arithmetic s =>
    let output := expand_arithmetic ext E [] s
    some (if output = [] then [] else [output])
  | _ => Option.none

/-- One step of the multi-token fold of expand_tokens (lines 601-679),
carried state: shared buffer and expanded words.  A Brace token here is
the source's unreachable arm, modelled as a panic. -/
def tokensStep (ext : Ext) (E : Expander) (rec : Rec) (rq : Bool)
    (st : Str × List Str) (w : WordToken) : Option (Str × List Str) :=
  match st with
  | (output, words) =>
    match w with
    | .array elements idx => do
      let a ← array_expand rec elements idx
      pure (output ++ joinSp a, words)
    | .arrayVariable name _ idx =>
      match E.array name idx with
      | some a => some (output ++ joinSp a, words)
      | Option.none => some (output, words)
    | .arrayProcess command _ idx => do
      let t ← arrayProcessAppend ext E command idx
      pure (output ++ t, words)
    | .arrayMethod m => some (output ++ m.handle E, words)
    | .stringMethod m => some (output ++ m.handle E, words)
    | .brace _ => Option.none
    | .normal text doGlob tilde => some (expand ext E output words text doGlob tilde)
    | .whitespace t => some (output ++ t, words)
    | .process command quoted idx => do
      let q := if rq then !quoted else quoted
      let o ← expand_process ext E output command idx q
      pure (o, words)
    | .var name quoted idx =>
      let q := if rq then !quoted else quoted
      match E.string name q with
      | Option.none => some (output, words)
      | some v => some (slice ext output v idx, words)
    | .arithmetic s => some (expand_arithmetic ext E output s, words)

/-- expand_tokens (lines 581-688): dispatch on emptiness, brace presence
and token count; the fold path appends its non-empty buffer as the final
element. -/
def expand_tokens (ext : Ext) (E : Expander) (rec : Rec)
    (tokenBuffer : List WordToken) (rq containsBrace : Bool) : Option (List Str) :=
  match tokenBuffer with
  | [] => some []
  | _ =>
    if containsBrace then expand_braces ext E rec tokenBuffer rq
    else
      match tokenBuffer with
      | [token] => do
        match (← expand_single_array_token ext E rec token) with
        | some arr => pure arr
        | Option.none => expand_single_string_token ext E token rq
      | _ => do
        let st ← tokenBuffer.foldlM (tokensStep ext E rec rq) ([], [])
        match st with
        | (output, words) => pure (if output = [] then words else words ++ [output])

/-- The common body of expand_string (lines 196-252) and of
expand_string_no_glob (lines 254-279), parameterized on the glob-enabled
flag handed to the tokenizer: tokenize (pushing the single empty Normal
token with the glob flag set when the input is empty), apply the
multi-key rewrite in the glob-enabled variant only, detect braces, and
dispatch to expand_tokens.  The fuel bounds the recursion depth through
brace alternatives and array elements (the source recurses on the host
stack); fuel exhaustion is modelled as failure. -/
def expandStringCore (ext : Ext) (E : Expander) :
    Nat → Bool → Str → Bool → Option (List Str)
  | 0, _, _, _ => Option.none
  | fuel + 1, globEnabled, original, rq =>
    let toks0 :=
      if original = [] then [WordToken.normal [] true false]
      else tokenizeM original globEnabled
    let toks := if globEnabled then toks0.flatMap rewriteTok else toks0
    let containsBrace :=
      toks0.any (fun t => match t with | .brace _ => true | _ => false)
    expand_tokens ext E (expandStringCore ext E fuel) toks rq containsBrace

/-- expand_string: the public entry point (glob-enabled tokenizer). -/
def expand_string (ext : Ext) (E : Expander) (fuel : Nat) (original : Str)
    (rq : Bool) : Option (List Str) :=
  expandStringCore ext E fuel true original rq

/-- expand_string_no_glob: the recursive entry used for brace
alternatives (glob-disabled tokenizer, no multi-key rewrite). -/
def expand_string_no_glob (ext : Ext) (E : Expander) (fuel : Nat)
    (original : Str) (rq : Bool) : Option (List Str) :=
  expandStringCore ext E fuel false original rq

/-- Ample recursion fuel for every concrete run in this file. -/
def FUEL : Nat := 12

/-- Following the spec words for the quoted normalization: strip only the
trailing run of newline characters, keep everything else verbatim. -/
def trimNlSpec (out : Str) : Str := (out.reverse.dropWhile (fun b => b == 10)).reverse

/-- The flush closure of expand_arithmetic: an empty candidate contributes
nothing; otherwise the unquoted lookup's value, or the candidate itself
when the lookup fails. -/
def flushStr (E : Expander) (v : Str) : Str :=
  if v = [] then [] else (E.string v false).getD v

/-- Following the spec words for the arithmetic adapter: split the
expression into maximal runs of identifier bytes, resolve each run through
the unquoted string lookup (keeping it on failure), and pass every other
byte through unchanged. -/
def substIdents (E : Expander) : List Nat → Str
  | [] => []
  | c :: rest =>
    if identByte c then
      flushStr E (c :: rest.takeWhile identByte) ++
        substIdents E (rest.dropWhile identByte)
    else c :: substIdents E rest
termination_by l => l.length
decreasing_by
  · have := (List.dropWhile_sublist (l := t) (p := identByte)).length_le
    simp only [List.length_cons]
    omega
  · simp only [List.length_cons]
    omega

/-- A concrete recursive-expansion callback for witnesses: every word
expands to itself alone. -/
def rec0 : Rec := fun _ s _ => some [s]

/-- A concrete range whose bounds never resolve. -/
def r0 : RangeT := fun _ => Option.none

/-- The model reproduces the source test expand_process_unquoted. -/
theorem validate_unquoted_mary :
    expand_process ext0 (cmdE (str (" Mary   had\ta little  \n\t lamb\t"))) [] []
      Select.all false = some (str ("Mary had a little lamb")) := by decide

/-- The model reproduces the source test expand_process_quoted. -/
theorem validate_quoted_mary :
    expand_process ext0 (cmdE (str (" Mary   had\ta little  \n\t lamb\t"))) [] []
      Select.all true = some (str (" Mary   had\ta little  \n\t lamb\t")) := by decide

/-- The model reproduces the spec example: unquoted two-word output. -/
theorem validate_spec_unquoted :
    expand_process ext0 (cmdE (str ("  a   b\n"))) [] [] Select.all false =
      some (str ("a b")) := by decide

/-- The model reproduces the spec example: the same output quoted. -/
theorem validate_spec_quoted :
    expand_process ext0 (cmdE (str ("  a   b\n"))) [] [] Select.all true =
      some (str ("  a   b")) := by decide

/-- C1: for every command-substitution output the unquoted in-place
whitespace compaction never indexes out of bounds and never underflows its
size counter, including a non-empty all-whitespace output.  The claim is
false on the code: for the output holding a single space the loop exits
with size = 0 and prev_is_whitespace still true, so the final decrement
wraps the usize counter to 2^64 - 1 and the subsequent slice of the
one-byte buffer indexes out of bounds - a panic rather than local
degradation. -/
theorem c1_size_underflow :
    compactLoop 6 [32] 1 0 true = CompactOut.ok [32] (WSIZE - 1) ∧
    expand_process ext0 (cmdE [32]) [] [] Select.all false = Option.none := by decide

/-- C2: unquoted expansion is claimed to collapse every whitespace run to
one space and trim both ends.  The claim is false on the code: for the
output "a  b" the compaction loop skips its ptr::copy when the removed
byte sits at position size - 1, re-processes the same space, decrements
size twice and so drops the final "b": the code appends "a" where the
claimed collapse yields "a b". -/
theorem c2_collapse_bug :
    expand_process ext0 (cmdE (str ("a  b"))) [] [] Select.all false =
      some (str ("a")) ∧
    joinSp (splitWs (str ("a  b"))) = str ("a b") ∧
    str ("a") ≠ str ("a b") := by decide

/-- C3 counterexample: the claim states that a quoted output consisting
entirely of newlines contributes the empty text; on the code the rfind
fallback keeps the whole output, so the single newline is appended
verbatim and is not empty. -/
theorem c3_counterexample :
    expand_process ext0 (cmdE [10]) [] [] Select.all true = some [10] ∧
    ([10] : Str) ≠ ([] : Str) := by decide

/-- When rfind finds no byte other than a newline, every byte is one. -/
theorem rfind_none_all : ∀ (l : List Nat), rfindNonNl l = Option.none → ∀ b ∈ l, b = 10 := by
  intro l
  induction l with
  | nil => intro _ b hb; simp at hb
  | cons c t ih =>
    intro h b hb
    simp only [rfindNonNl] at h
    cases hr : rfindNonNl t with
    | some j => simp [hr] at h
    | none =>
      simp only [hr] at h
      have hc : c = 10 := by
        by_contra hne
        simp [hne] at h
      rcases List.mem_cons.mp hb with rfl | hbt
      · exact hc
      · exact ih hr b hbt

/-- When rfind succeeds, some byte differs from a newline. -/
theorem rfind_some_ex : ∀ (l : List Nat) (p : Nat), rfindNonNl l = some p → ∃ b ∈ l, ¬b = 10 := by
  intro l
  induction l with
  | nil => intro p h; simp [rfindNonNl] at h
  | cons c t ih =>
    intro p h
    simp only [rfindNonNl] at h
    cases hr : rfindNonNl t with
    | some j =>
      obtain ⟨b, hb, hb10⟩ := ih j hr
      exact ⟨b, List.mem_cons_of_mem c hb, hb10⟩
    | none =>
      simp only [hr] at h
      by_cases hc : c = 10
      · simp [hc] at h
      · exact ⟨c, List.mem_cons_self c t, hc⟩

/-- The rfind-based prefix of the quoted branch equals the spec-side strip
of the trailing newline run, whenever rfind succeeds. -/
theorem rfind_take : ∀ (l : List Nat) (p : Nat), rfindNonNl l = some p →
    l.take (p + 1) = trimNlSpec l := by
  intro l
  induction l with
  | nil => intro p h; simp [rfindNonNl] at h
  | cons c t ih =>
    intro p h
    simp only [rfindNonNl] at h
    cases hr : rfindNonNl t with
    | some j =>
      simp only [hr] at h
      have hp : j + 1 = p := by
        injection h
      subst hp
      rw [List.take_succ_cons, ih j hr]
      unfold trimNlSpec
      rw [List.reverse_cons, List.dropWhile_append]
      have hne : t.reverse.dropWhile (fun b => b == 10) ≠ [] := by
        rw [Ne, List.dropWhile_eq_nil_iff]
        push_neg
        obtain ⟨b, hb, hb10⟩ := rfind_some_ex t j hr
        exact ⟨b, List.mem_reverse.mpr hb, by simpa using hb10⟩
      rw [if_neg (by simpa [List.isEmpty_iff] using hne)]
      rw [List.reverse_append]
      simp
    | none =>
      simp only [hr] at h
      by_cases hc : c = 10
      · simp [hc] at h
      · have hp : p = 0 := by
          simp [hc] at h
          omega
        subst hp
        rw [List.take_succ_cons]
        unfold trimNlSpec
        rw [List.reverse_cons, List.dropWhile_append]
        have hall : t.reverse.dropWhile (fun b => b == 10) = [] := by
          rw [List.dropWhile_eq_nil_iff]
          intro x hx
          simp [rfind_none_all t hr x (List.mem_reverse.mp hx)]
        simp [hall, hc]

/-- C3 amended: for every non-empty output expanded quoted with selector
All, the code appends the output with its trailing newline run removed
whenever the output holds at least one non-newline byte; an output
consisting entirely of newlines is appended verbatim (not as the empty
text). -/
theorem c3_amended (ext : Ext) (out cur cmd : Str) (hne : out ≠ []) :
    expand_process ext (cmdE out) cur cmd Select.all true =
      some (cur ++ (if out.any (fun b => b != 10) then trimNlSpec out else out)) := by
  simp only [expand_process, cmdE]
  rw [if_neg hne]
  cases hr : rfindNonNl out with
  | none =>
    have hall : (out.any (fun b => b != 10)) = false := by
      cases hA : out.any (fun b => b != 10)
      · rfl
      · exfalso
        obtain ⟨b, hb, hb10⟩ := List.any_eq_true.mp hA
        have := rfind_none_all out hr b hb
        simp [this] at hb10
    simp [slice, hr, hall]
  | some p =>
    have hsome : (out.any (fun b => b != 10)) = true := by
      rw [List.any_eq_true]
      obtain ⟨b, hb, hb10⟩ := rfind_some_ex out p hr
      exact ⟨b, hb, by simpa using hb10⟩
    simp [slice, hr, hsome, rfind_take out p hr]

/-- C3 amended witness at a concrete output. -/
theorem c3_amended_witness :
    (str ("x\n") ≠ ([] : Str)) ∧
    expand_process ext0 (cmdE (str ("x\n"))) [] [] Select.all true =
      some ([] ++ (if (str ("x\n")).any (fun b => b != 10)
        then trimNlSpec (str ("x\n")) else str ("x\n"))) :=
  ⟨by decide, c3_amended ext0 (str ("x\n")) [] [] (by decide)⟩

/-- C4: brace expansion is the deterministic left-to-right,
first-candidate-first cartesian product: the nested word from the source
test expand_braces_v2 yields exactly its six combinations in order. -/
theorem c4_brace_product :
    expand_string ext0 E0 FUEL (str ("It\x7b\x7bem,alic\x7diz,erat\x7de\x7bd,\x7d")) false =
      some [str ("Itemized"), str ("Itemize"), str ("Italicized"), str ("Italicize"),
        str ("Iterated"), str ("Iterate")] := by decide

/-- The model reproduces the source test expand_braces (first candidates
of a flat group, order preserved). -/
theorem validate_flat_braces :
    expand_string ext0 E0 FUEL (str ("a\x7bb,c\x7dd")) false =
      some [str ("abd"), str ("acd")] := by decide

/-- The model reproduces the backward-index source test on array
literals. -/
theorem validate_backward_index :
    expand_string ext0 E0 FUEL (str ("[1 2 3][-3]")) false = some [str ("1")] := by decide

/-- C5: an index resolving past either end of the flattened expansion
yields nothing, a range whose bounds fail to resolve yields the empty
array, and the spec's concrete out-of-range word expands to the empty
array - never an error. -/
theorem c5_out_of_range :
    (∀ (rec : Rec) (elements : List Str) (n : Nat) (exps : List (List Str)),
        elements.mapM (fun e => rec true e false) = some exps →
        exps.flatten.length ≤ n →
        array_nth rec elements (Index.forward n) = some Option.none ∧
        array_nth rec elements (Index.backward n) = some Option.none) ∧
    (∀ (rec : Rec) (elements : List Str) (r : RangeT) (exps : List (List Str)),
        elements.mapM (fun e => rec true e false) = some exps →
        r exps.flatten.length = Option.none →
        array_range rec elements r = some []) ∧
    expand_string ext0 E0 FUEL (str ("[1 2 3][-17]")) false = some [] := by
  refine ⟨?_, ?_, by decide⟩
  · intro rec elements n exps hmap hlen
    constructor
    · simp only [array_nth]
      rw [hmap]
      simp
      simpa using hlen
    · simp only [array_nth]
      rw [hmap]
      simp
      simpa using hlen
  · intro rec elements r exps hmap hr
    have hr2 : r (List.map List.length exps).sum = Option.none := by simpa using hr
    simp only [array_range]
    rw [hmap]
    simp [hr2]

/-- C5 witness at the concrete elements 1 2 3, backward index 16 and a
never-resolving range. -/
theorem c5_out_of_range_witness :
    array_nth rec0 [str ("1"), str ("2"), str ("3")] (Index.backward 16) = some Option.none ∧
    array_range rec0 [str ("1"), str ("2"), str ("3")] r0 = some [] := by
  constructor
  · exact (c5_out_of_range.1 rec0 [str ("1"), str ("2"), str ("3")] 16
      [[str ("1")], [str ("2")], [str ("3")]] (by decide) (by decide)).2
  · exact c5_out_of_range.2.1 rec0 [str ("1"), str ("2"), str ("3")] r0
      [[str ("1")], [str ("2")], [str ("3")]] (by decide) rfl

/-- The glob post-processing fold, restated over an arbitrary
accumulator. -/
theorem globFold_foldl (ext : Ext) : ∀ (words acc : List Str),
    words.foldl
      (fun array word =>
        if word.contains 42 then
          match ext.glob word with
          | .ok [] => array ++ [word]
          | .ok (p :: ps) => array ++ (p :: ps)
          | .error _ => array ++ [word]
        else array ++ [word])
      acc
    = acc ++ words.flatMap (fun w =>
        if w.contains 42 then
          match ext.glob w with
          | .ok [] => [w]
          | .ok (p :: ps) => p :: ps
          | .error _ => [w]
        else [w]) := by
  intro words
  induction words with
  | nil => intro acc; simp
  | cons w ws ih =>
    intro acc
    rw [List.foldl_cons, ih]
    by_cases hc : 42 ∈ w
    · cases hg : ext.glob w with
      | ok paths => cases paths <;> simp [hc, hg, List.append_assoc]
      | error e => simp [hc, hg, List.append_assoc]
    · simp [hc, List.append_assoc]

/-- C6: the glob post-processor triggers only on words holding a star; on
a glob error or zero matches the original text is the single output, and
otherwise each match is its own element in enumeration order.  The first
part characterizes the brace-output fold, the second and third the
glob-flagged and unflagged literal paths of fn expand, and the fourth
records that the modelled tokenizer raises the glob flag exactly on
star-holding literals when globbing is enabled. -/
theorem c6_glob_gate :
    (∀ (ext : Ext) (words : List Str),
        globFold ext words = words.flatMap (fun w =>
          if w.contains 42 then
            match ext.glob w with
            | .ok [] => [w]
            | .ok (p :: ps) => p :: ps
            | .error _ => [w]
          else [w])) ∧
    (∀ (ext : Ext) (E : Expander) (output : Str) (words : List Str) (text : Str) (tilde : Bool),
        expand ext E output words text true tilde =
          (output, words ++
            (match ext.glob (if tilde then (E.tilde text).getD text else text) with
             | .ok [] => [if tilde then (E.tilde text).getD text else text]
             | .ok (p :: ps) => p :: ps
             | .error _ => [if tilde then (E.tilde text).getD text else text]))) ∧
    (∀ (ext : Ext) (E : Expander) (output : Str) (words : List Str) (text : Str) (tilde : Bool),
        expand ext E output words text false tilde =
          (output ++ (if tilde then (E.tilde text).getD text else text), words)) ∧
    (∀ (s : Str) (g : Bool) (tok : WordToken), tok ∈ tokenizeM s g →
        (match tok with
         | WordToken.normal t dg _ => dg = (g && t.contains 42)
         | _ => True)) := by
  refine ⟨?_, ?_, ?_, ?_⟩
  · intro ext words
    unfold globFold
    rw [globFold_foldl]
    simp
  · intro ext E output words text tilde
    cases hg : ext.glob (if tilde then (E.tilde text).getD text else text) with
    | ok paths => cases paths <;> simp [expand, hg]
    | error e => simp [expand, hg]
  · intro ext E output words text tilde
    simp [expand]
  · intro s g tok hmem
    have aux : ∀ (fuel : Nat) (u : List Nat) (tok : WordToken), tok ∈ tokAux g fuel u →
        (match tok with
         | WordToken.normal t dg _ => dg = (g && t.contains 42)
         | _ => True) := by
      intro fuel
      induction fuel with
      | zero => intro u tok h; simp [tokAux] at h
      | succ m ih =>
        intro u tok h
        cases u with
        | nil => simp [tokAux] at h
        | cons c cs =>
          simp only [tokAux] at h
          rcases List.mem_append.mp h with h1 | h2
          · by_cases ht : (c :: cs).takeWhile (fun x => x != 123) = []
            · simp [ht] at h1
            · rw [if_neg ht] at h1
              obtain rfl := List.mem_singleton.mp h1
              simp
          · cases hd : (c :: cs).dropWhile (fun x => x != 123) with
            | nil => simp [hd] at h2
            | cons r rs =>
              simp only [hd] at h2
              cases hm : matchDepth 123 125 rs 0 with
              | some pr =>
                obtain ⟨inside, after2⟩ := pr
                simp only [hm, List.mem_cons] at h2
                rcases h2 with h2 | h2
                · subst h2; simp
                · exact ih after2 tok h2
              | none =>
                simp only [hm, List.mem_singleton] at h2
                subst h2
                simp
    unfold tokenizeM at hmem
    repeat' split at hmem
    all_goals
      first
      | exact aux _ _ tok hmem
      | (rcases List.mem_cons.mp hmem with h | h
         · subst h; simp
         · exact aux _ _ tok h)

/-- C6 witness: the modelled tokenizer on a concrete star-holding word
raises the glob flag exactly as the star test dictates. -/
theorem c6_glob_gate_witness : true = (true && (str ("a*")).contains 42) :=
  c6_glob_gate.2.2.2 (str ("a*")) true (WordToken.normal (str ("a*")) true false)
    (List.mem_singleton.mpr rfl)

/-- substIdents restated through its own leading maximal run. -/
theorem substIdents_split (E : Expander) : ∀ (l : List Nat),
    substIdents E l =
      flushStr E (l.takeWhile identByte) ++ substIdents E (l.dropWhile identByte) := by
  intro l
  cases l with
  | nil => simp [substIdents, flushStr]
  | cons c t =>
    by_cases hc : identByte c = true
    · simp [substIdents, hc, List.takeWhile_cons, List.dropWhile_cons]
    · simp [substIdents, hc, List.takeWhile_cons, List.dropWhile_cons, flushStr]

/-- The byte loop of expand_arithmetic computes the spec-side maximal-run
substitution, for every pending run and accumulated output. -/
theorem arithLoop_spec (E : Expander) : ∀ (l : List Nat) (varbuf inter : Str),
    arithLoop E l varbuf inter =
      inter ++ flushStr E (varbuf ++ l.takeWhile identByte) ++
        substIdents E (l.dropWhile identByte) := by
  intro l
  induction l with
  | nil =>
    intro varbuf inter
    by_cases hv : varbuf = [] <;> simp [arithLoop, substIdents, flushStr, hv]
  | cons c t ih =>
    intro varbuf inter
    by_cases hc : identByte c = true
    · simp only [arithLoop, hc, if_true]
      rw [ih]
      simp [List.takeWhile_cons, List.dropWhile_cons, hc, List.append_assoc]
    · have h1 : (if varbuf = [] then inter
          else inter ++ (E.string varbuf false).getD varbuf) = inter ++ flushStr E varbuf := by
        by_cases hv : varbuf = [] <;> simp [flushStr, hv]
      have step : arithLoop E (c :: t) varbuf inter =
          arithLoop E t [] ((inter ++ flushStr E varbuf) ++ [c]) := by
        simp only [arithLoop, hc, Bool.false_eq_true, if_false]
        rw [h1]
      rw [step, ih]
      simp only [List.nil_append]
      have h2 : substIdents E (c :: t) =
          c :: (flushStr E (t.takeWhile identByte) ++ substIdents E (t.dropWhile identByte)) := by
        simp [substIdents, hc]
        rw [substIdents_split E t]
      simp [List.takeWhile_cons, List.dropWhile_cons, hc, h2, List.append_assoc]

/-- C7: expand_arithmetic classifies maximal runs of ASCII digits, letters
and underscore as identifiers, substitutes each through the unquoted
string lookup keeping the text on a failed lookup, hands the substituted
expression to the evaluator, and appends its result text - or, on
failure, its error message text - without failing; and in a multi-token
word an arithmetic token's contribution joins the shared buffer so the
sibling token still expands normally. -/
theorem c7_arith_adapter :
    (∀ (ext : Ext) (E : Expander) (output input : Str),
        expand_arithmetic ext E output input =
          output ++
            (match ext.calcEval (substIdents E input) with
             | .ok v => v
             | .error e => e)) ∧
    (∀ (ext : Ext) (E : Expander) (rec : Rec) (s t : Str) (rq : Bool),
        expand_tokens ext E rec [WordToken.arithmetic s, WordToken.normal t false false]
            rq false =
          some (if expand_arithmetic ext E [] s ++ t = [] then []
                else [expand_arithmetic ext E [] s ++ t])) := by
  constructor
  · intro ext E output input
    have hloop : arithLoop E input [] [] = substIdents E input := by
      rw [arithLoop_spec]
      simp [← substIdents_split]
    simp only [expand_arithmetic, hloop]
    cases ext.calcEval (substIdents E input) <;> rfl
  · intro ext E rec s t rq
    rfl

/-- The candidate-collecting fold of expand_brace, restated over an
arbitrary accumulator. -/
theorem parseRange_foldl (ext : Ext) : ∀ (l acc : List Str),
    l.foldl
      (fun temp word =>
        match ext.parseRange word with
        | some elements => temp ++ elements
        | Option.none => temp ++ [word])
      acc
    = acc ++ l.flatMap (fun w => (ext.parseRange w).getD [w]) := by
  intro l
  induction l with
  | nil => intro acc; simp
  | cons w ws ih =>
    intro acc
    rw [List.foldl_cons, ih]
    cases hw : ext.parseRange w <;> simp [hw, List.append_assoc]

/-- C8: whenever the alternatives of a Brace token expand, with
range-literal enumeration applied, to an empty candidate list, the literal
brace pair is appended to the rolling buffer verbatim and neither a
placeholder nor a candidate list is recorded. -/
theorem c8_empty_brace (ext : Ext) (rec : Rec) (current : Str)
    (expanders : List (List Str)) (tokens : List BraceToken) (nodes : List Str)
    (rq : Bool) (words : List (List Str))
    (hmap : nodes.mapM (fun node => rec false node rq) = some words)
    (hempty : words.flatten.flatMap (fun w => (ext.parseRange w).getD [w]) = []) :
    expand_brace ext rec current expanders tokens nodes rq =
      some (current ++ [123, 125], expanders, tokens) := by
  simp only [expand_brace]
  rw [hmap]
  simp [parseRange_foldl, hempty]

/-- C8 witness: an empty alternative list leaves the state untouched apart
from the literal brace pair on the buffer. -/
theorem c8_empty_brace_witness :
    expand_brace ext0 rec0 (str ("a")) [] [] [] false =
      some (str ("a") ++ [123, 125], [], []) :=
  c8_empty_brace ext0 rec0 (str ("a")) [] [] [] false [] rfl rfl

/-- C9: expanding the empty input yields exactly one empty-string element,
for every expander capability set and both reverse-quoting flags (and any
collaborator set whose glob matcher has no match for the empty pattern). -/
theorem c9_empty_input (ext : Ext) (E : Expander) (rq : Bool) (fuel : Nat)
    (hglob : ∀ ps, ext.glob [] = .ok ps → ps = []) :
    expand_string ext E (fuel + 1) [] rq = some [([] : Str)] := by
  simp only [expand_string, expandStringCore, rewriteTok, expand_tokens,
    expand_single_array_token, expand_single_string_token, expand]
  cases hg : ext.glob ([] : Str) with
  | ok ps =>
    have hps := hglob ps hg
    subst hps
    simp [hg, rewriteTok]
  | error e => simp [hg, rewriteTok]

/-- C9 witness at the concrete collaborators and the empty expander. -/
theorem c9_empty_input_witness :
    expand_string ext0 E0 1 [] false = some [([] : Str)] :=
  c9_empty_input ext0 E0 false 0 (fun _ h => (Except.ok.inj h).symm)

/-- C10: a word that is a single quoted ArrayVariable token collapses a
successful array lookup into one element joining the values with single
spaces, and a failed lookup into the empty array. -/
theorem c10_quoted_array (ext : Ext) (E : Expander) (rec : Rec) (name : Str)
    (sel : Select) (rq : Bool) :
    expand_tokens ext E rec [WordToken.arrayVariable name true sel] rq false =
      some
        (match E.array name sel with
         | some a => [joinSp a]
         | Option.none => ([] : List Str)) := by
  cases h : E.array name sel <;>
    simp [expand_tokens, expand_single_array_token, h]

end IonExpand
